import Mathlib

/-!
Verification of the graph geometry library (automol/graph/_geom2.py).

This file gives a shallow embedding of the geometry-construction engine:
the heuristic bond distance/angle model, the ring-closure angle solver
`ring_arc_bond_angle`, the chain z-matrix builder `chain_zmatrix`, the ring
z-matrix builder `ring_zmatrix`, and the ring-system composer
`ring_system_zmatrix`; together with theorems settling the specification's
claims about them.

Modelling conventions:
* Graphs are seen through the accessor interface the geometry code consumes
  (`atom_symbols`, `atom_neighbor_keys`,
  `resonance_dominant_atom_hybridizations`).
* Python floats are modelled as real numbers; the `scipy` bracketed root
  search (`brentq` on the interval `[0.01, 2*pi]`, whose convergence the
  source asserts) is modelled relationally: the solver may return any exact
  root of the residual inside the bracket.
* Python `assert` failures are modelled as `Except.error`.
* The z-matrix primitive operations (`automol.zmat.count`, `add_atom`,
  `distance`, `central_angle`, `join_replace_one`) are not part of the given
  sources; they are modelled from the specification's interface description
  and marked as such below.
-/

open Real

-- ### Module-level constants (_geom2.py lines 17-31)

noncomputable def XY_DIST : ℝ := 1.5

noncomputable def XH_DIST : ℝ := 1.1

noncomputable def TET_ANG : ℝ := 109.4712

noncomputable def TRI_ANG : ℝ := 120

noncomputable def LIN_ANG : ℝ := 180

noncomputable def CIS_DIH : ℝ := 0

noncomputable def TRA_DIH : ℝ := 180

noncomputable def RIT_ANG : ℝ := 90

-- ### Atomic symbols and the periodic-table lookup (external: qcelemental)

inductive ChemSym where
  | H
  | C
  | N
  | O
deriving DecidableEq

/-- Atomic number, the external periodic-table lookup `pt.to_Z`. -/
def ChemSym.toZ : ChemSym → ℕ
  | .H => 1
  | .C => 6
  | .N => 7
  | .O => 8

/-- Interface view of a molecular graph: exactly the accessor outputs that the
geometry code consumes, namely `atom_symbols(gra)`, `atom_neighbor_keys(gra)`
and `resonance_dominant_atom_hybridizations(gra)` (the latter two live outside
the given sources; per the spec they map atom keys to neighbor-key sets and to
a hybridization classification). -/
structure Graph where
  symDct : ℕ → ChemSym
  ngbDct : ℕ → List ℕ
  hybDct : ℕ → ℕ

/-- Failures of the geometry code: Python `assert` violations, distinguished
as in the specification's error model. -/
inductive AutomolError where
  | preconditionViolation
  | unsupportedHybridization
deriving DecidableEq

-- ### Heuristic parameter model (_geom2.py lines 34-68)

/-- Embedding of `heuristic_bond_distance(gra, key1, key2, check=True)`:
when `check` holds, asserts `key1 in atom_neighbor_keys(gra)[key2]`; returns
the X-H constant when either atom has atomic number 1, the heavy-atom
constant otherwise. -/
noncomputable def heuristic_bond_distance (gra : Graph) (key1 key2 : ℕ)
    (check : Bool) : Except AutomolError ℝ :=
  if check = true ∧ key1 ∉ gra.ngbDct key2 then .error .preconditionViolation
  else if (gra.symDct key1).toZ = 1 ∨ (gra.symDct key2).toZ = 1 then .ok XH_DIST
  else .ok XY_DIST

/-- Embedding of `heuristic_bond_angle(gra, key1, key2, key3, check=True)`:
when `check` holds, asserts that `key1` and `key3` are both neighbors of the
center `key2`; then returns the canonical angle for the center's dominant
hybridization, failing (the source's `assert hyb2 == 1`) when the
hybridization is none of 3, 2, 1. -/
noncomputable def heuristic_bond_angle (gra : Graph) (key1 key2 key3 : ℕ)
    (check : Bool) : Except AutomolError ℝ :=
  if check = true ∧ ¬(key1 ∈ gra.ngbDct key2 ∧ key3 ∈ gra.ngbDct key2) then
    .error .preconditionViolation
  else if gra.hybDct key2 = 3 then .ok TET_ANG
  else if gra.hybDct key2 = 2 then .ok TRI_ANG
  else if gra.hybDct key2 = 1 then .ok LIN_ANG
  else .error .unsupportedHybridization

-- ### Ring-closure angle solver (_geom2.py lines 71-135)

/-- The clamp at the top of the residual `_f(theta)`: the source clamps
`|theta| < 0.001` to `0.001` to avoid the removable singularity at 0. -/
noncomputable def clampTheta (θ : ℝ) : ℝ := if |θ| < 0.001 then 0.001 else θ

/-- Embedding of the inner residual `_f(theta)` of `ring_arc_bond_angle`:
`sin(theta/(2*(num-1)))/sin(theta/2) - bond_dist/end_dist`, evaluated at the
clamped theta. -/
noncomputable def ringArcResidual (num : ℕ) (end_dist bond_dist θ : ℝ) : ℝ :=
  Real.sin (clampTheta θ / (2 * ((num : ℝ) - 1))) / Real.sin (clampTheta θ / 2) -
    bond_dist / end_dist

/-- Embedding of `ring_arc_bond_angle(num, end_dist, bond_dist)` as a relation
between the inputs and the returned angle (in degrees).  The source returns
`180.` outright when `end_dist > (num - 1) * bond_dist`; otherwise it runs a
bracketed root search (`brentq` on `[0.01, 2*pi]`) for the residual, asserts
convergence, converts the root from radians to degrees (the factor `180/pi`)
and returns `180 - theta_degrees/(num - 1)`.  The root search is modelled by
an exact root of the residual inside the bracket. -/
def RingArcBondAngle (num : ℕ) (end_dist bond_dist ang : ℝ) : Prop :=
  (((num : ℝ) - 1) * bond_dist < end_dist ∧ ang = 180) ∨
  (¬ ((num : ℝ) - 1) * bond_dist < end_dist ∧
    ∃ θ : ℝ, 0.01 ≤ θ ∧ θ ≤ 2 * π ∧ ringArcResidual num end_dist bond_dist θ = 0 ∧
      ang = 180 - θ * (180 / π) / ((num : ℝ) - 1))

-- ### Z-matrix data model and primitives

/-- One z-matrix row: an atom symbol, up to three back-references to earlier
rows, and the distance/angle/dihedral values measured against them, exactly
as the `key_row`/`val_row` lists are passed by the builders (a slot is `none`
where the source passes Python `None`). -/
structure ZRow where
  sym : ChemSym
  keyRow : List (Option ℕ)
  valRow : List (Option ℝ)

abbrev ZMat := List ZRow

namespace zmat

/-- Modelled from the spec: rowCount (`automol.zmat.count`) is the number of
rows placed so far. -/
def count (zma : ZMat) : ℕ := zma.length

/-- Modelled from the spec: appendAtom (`automol.zmat.add_atom`) appends one
immutable row holding the symbol, reference rows and values it is given. -/
def add_atom (zma : ZMat) (sym : ChemSym) (keyRow : List (Option ℕ))
    (valRow : List (Option ℝ)) : ZMat :=
  zma ++ [⟨sym, keyRow, valRow⟩]

end zmat

/-- The non-`none` back-references of a row. -/
def rowRefs (r : ZRow) : List ℕ := r.keyRow.reduceOption

-- ### The rolling three-key placement window shared by the builders

/-- The builders' rolling window of the up-to-three most recently placed keys
(`key1` oldest, `key3` newest); the source keeps them in the variables
`key1, key2, key3`, initially all `None`. -/
inductive Window where
  | w0
  | w1 (key3 : ℕ)
  | w2 (key2 key3 : ℕ)
  | w3 (key1 key2 key3 : ℕ)

/-- The source's shift `key1, key2, key3 = key2, key3, key4` after each
placement. -/
def Window.push : Window → ℕ → Window
  | .w0, k => .w1 k
  | .w1 k3, k => .w2 k3 k
  | .w2 k2 k3, k => .w3 k2 k3 k
  | .w3 _ k2 k3, k => .w3 k2 k3 k

/-- The loop state of the builders: the row map `row_dct` (graph key to
z-matrix row), the z-matrix built so far, and the rolling window. -/
structure ChainSt where
  rowDct : ℕ → Option ℕ
  zma : ZMat
  win : Window

-- ### Chain z-matrix builder (_geom2.py lines 138-174)

/-- One iteration of the `chain_zmatrix` loop for the next key `key4`:
assign it the next row (`row_dct[key4] = automol.zmat.count(zma)`), compute
the distance to `key3`, the angle at `key3` and the fixed trans dihedral
when the corresponding window keys exist, and append the row.  Row lookups
`row_dct[key3]` etc. happen after the assignment, as in the source; a lookup
of an absent key (a Python `KeyError`, impossible for window keys) yields
`none` in the reference slot. -/
noncomputable def chain_step (gra : Graph) (st : ChainSt) (key4 : ℕ) :
    Except AutomolError ChainSt :=
  let rowDct : ℕ → Option ℕ :=
    fun k => if k = key4 then some (zmat.count st.zma) else st.rowDct k
  match st.win with
  | .w0 =>
      .ok ⟨rowDct,
        zmat.add_atom st.zma (gra.symDct key4) [none, none, none] [none, none, none],
        st.win.push key4⟩
  | .w1 k3 => do
      let r34 ← heuristic_bond_distance gra k3 key4 true
      .ok ⟨rowDct,
        zmat.add_atom st.zma (gra.symDct key4) [rowDct k3, none, none]
          [some r34, none, none],
        st.win.push key4⟩
  | .w2 k2 k3 => do
      let r34 ← heuristic_bond_distance gra k3 key4 true
      let a234 ← heuristic_bond_angle gra k2 k3 key4 true
      .ok ⟨rowDct,
        zmat.add_atom st.zma (gra.symDct key4) [rowDct k3, rowDct k2, none]
          [some r34, some a234, none],
        st.win.push key4⟩
  | .w3 k1 k2 k3 => do
      let r34 ← heuristic_bond_distance gra k3 key4 true
      let a234 ← heuristic_bond_angle gra k2 k3 key4 true
      .ok ⟨rowDct,
        zmat.add_atom st.zma (gra.symDct key4) [rowDct k3, rowDct k2, rowDct k1]
          [some r34, some a234, some TRA_DIH],
        st.win.push key4⟩

/-- The `for key4 in chain_iter` loop of `chain_zmatrix`. -/
noncomputable def chain_zmatrix_aux (gra : Graph) :
    List ℕ → ChainSt → Except AutomolError ChainSt
  | [], st => .ok st
  | k :: ks, st => do chain_zmatrix_aux gra ks (← chain_step gra st k)

/-- Embedding of `chain_zmatrix(gra, chain_keys)`: run the loop from the empty
state and return the z-matrix together with the row index assigned to each
chain key (`chain_rows`). -/
noncomputable def chain_zmatrix (gra : Graph) (chain_keys : List ℕ) :
    Except AutomolError (ZMat × List ℕ) := do
  let st ← chain_zmatrix_aux gra chain_keys ⟨fun _ => none, [], .w0⟩
  .ok (st.zma, chain_keys.map fun k => (st.rowDct k).getD 0)

-- ### Ring z-matrix builder (_geom2.py lines 222-268)

/-- One iteration of the `ring_zmatrix` loop: identical row bookkeeping to the
chain builder, but the value triple is the constant
`[bond_dist, bond_ang, 0.]` fixed before the loop (`r34 = bond_dist`,
`a234 = bond_ang`, `d1234 = 0.`). -/
noncomputable def ring_step (gra : Graph) (bond_dist bond_ang : ℝ)
    (st : ChainSt) (key4 : ℕ) : ChainSt :=
  let rowDct : ℕ → Option ℕ :=
    fun k => if k = key4 then some (zmat.count st.zma) else st.rowDct k
  let keyRow : List (Option ℕ) :=
    match st.win with
    | .w0 => [none, none, none]
    | .w1 k3 => [rowDct k3, none, none]
    | .w2 k2 k3 => [rowDct k3, rowDct k2, none]
    | .w3 k1 k2 k3 => [rowDct k3, rowDct k2, rowDct k1]
  ⟨rowDct,
    zmat.add_atom st.zma (gra.symDct key4) keyRow
      [some bond_dist, some bond_ang, some (0 : ℝ)],
    st.win.push key4⟩

/-- The `for key4 in ring_iter` loop of `ring_zmatrix`. -/
noncomputable def ring_zmatrix_aux (gra : Graph) (bond_dist bond_ang : ℝ) :
    List ℕ → ChainSt → ChainSt
  | [], st => st
  | k :: ks, st =>
      ring_zmatrix_aux gra bond_dist bond_ang ks (ring_step gra bond_dist bond_ang st k)

/-- The deterministic part of `ring_zmatrix(gra, ring_keys, bond_dist,
end_dist)` once the single bond angle has been obtained from the solver: run
the loop and return the z-matrix plus the row assigned to each ring key. -/
noncomputable def ring_zmatrix_rows (gra : Graph) (ring_keys : List ℕ)
    (bond_dist bond_ang : ℝ) : ZMat × List ℕ :=
  let st := ring_zmatrix_aux gra bond_dist bond_ang ring_keys ⟨fun _ => none, [], .w0⟩
  (st.zma, ring_keys.map fun k => (st.rowDct k).getD 0)

/-- Embedding of `ring_zmatrix(gra, ring_keys, bond_dist, end_dist)` (the
Python defaults are `bond_dist=XY_DIST, end_dist=XY_DIST`; a call that omits
an argument stands for passing that constant).  The single bond angle for the
whole ring/arc comes from `ring_arc_bond_angle(len(ring_keys), end_dist,
bond_dist)`, modelled relationally. -/
def RingZmatrix (gra : Graph) (ring_keys : List ℕ) (bond_dist end_dist : ℝ)
    (out : ZMat × List ℕ) : Prop :=
  ∃ bond_ang, RingArcBondAngle ring_keys.length end_dist bond_dist bond_ang ∧
    out = ring_zmatrix_rows gra ring_keys bond_dist bond_ang

-- ### Ring-system composer (_geom2.py lines 177-219)

/-- Reference shift used when splicing the arc's remaining rows behind the
composite: a reference to the arc's first row becomes the composite's
`targetRow`, a reference to arc row `r > 0` becomes composite row
`n1 + r - 1`. -/
def remapArcRef (n1 targetRow r : ℕ) : ℕ :=
  if r = 0 then targetRow else n1 + r - 1

/-- Overwrite the trailing reference slots of a spliced row with the entries
of the supplied reference-row matrix line. -/
def fillTailRefs (refs : List (Option ℕ)) (extra : List ℕ) : List (Option ℕ) :=
  refs.take (refs.length - extra.length) ++ extra.map some

/-- Overwrite the trailing value slots of a spliced row with the entries of
the supplied value matrix line. -/
def replaceTailVals (vals : List (Option ℝ)) (extra : List ℝ) : List (Option ℝ) :=
  vals.take (vals.length - extra.length) ++ extra.map some

/-- Re-anchor one of the arc's remaining rows onto the composite. -/
def spliceArcRow (n1 targetRow : ℕ) (extraRefs : List ℕ) (extraVals : List ℝ)
    (row : ZRow) : ZRow :=
  ⟨row.sym,
    fillTailRefs (row.keyRow.map (Option.map (remapArcRef n1 targetRow))) extraRefs,
    replaceTailVals row.valRow extraVals⟩

/-- Modelled from the spec: spliceReplaceOne (`automol.zmat.join_replace_one`),
which is not under the given sources.  Per the specification the arc z-matrix
is merged into the composite by identifying exactly one arc row (its first,
the first shared endpoint) with the composite row `targetRow`, concatenating
the remaining arc rows after the composite with their back-references shifted
into it, and re-anchoring the first appended rows (whose references and
angle/dihedral values pointed at the replaced row) using the supplied
reference-row and value matrices. -/
def join_replace_one (zma1 zma2 : ZMat) (targetRow : ℕ)
    (row_mat : List (List ℕ)) (val_mat : List (List ℝ)) : ZMat :=
  zma1 ++ (zma2.drop 1).enum.map fun p =>
    spliceArcRow zma1.length targetRow (row_mat.getD p.1 []) (val_mat.getD p.1 []) p.2

/-- Python `dict(zip(keys, rows))` followed by `__getitem__`: the last binding
of a key wins; a missing key (a Python `KeyError`, which cannot occur in the
calls made here) is modelled as row 0. -/
def dctLookup (ps : List (ℕ × ℕ)) (k : ℕ) : ℕ :=
  ((ps.reverse.find? fun p => p.1 == k).map Prod.snd).getD 0

/-- The composition step of `ring_system_zmatrix` after both ring z-matrices
are built (lines 203-215): the alignment angle `ang1` is the measured central
angle of the arc (external `automol.zmat.central_angle`, supplied as the
oracle `measAng`), `dih1 = 90.`, `dih2 = 0.`; the splice target is the row of
the arc's first endpoint in the ring, with the adjacent reference row one
before (or after, for ring position 0) the row of the other endpoint; then
`join_replace_one` merges the two z-matrices. -/
noncomputable def ring_system_compose (measAng : ZMat → ℕ → ℕ → ℕ → ℝ)
    (ring_keys arc_keys : List ℕ) (ringRes arcRes : ZMat × List ℕ) : ZMat :=
  let arc_zma := arcRes.1
  let arc_rows := arcRes.2
  let ang1 := measAng arc_zma (arc_rows.getD 1 0) (arc_rows.getD 0 0)
      (arc_rows.getD (arc_rows.length - 1) 0)
  let dih1 : ℝ := 90
  let dih2 : ℝ := 0
  let key3 := arc_keys.getD 0 0
  let key2 := arc_keys.getD (arc_keys.length - 1) 0
  let row3 := ring_keys.indexOf key3
  let row2 := ring_keys.indexOf key2
  let row1 := if 0 < row2 then row2 - 1 else row2 + 1
  join_replace_one ringRes.1 arc_zma row3 [[row2, row1], [row2]] [[ang1, dih1], [dih2]]

/-- Embedding of `ring_system_zmatrix(gra, ring_system_decomp_keys)` relating
the decomposition to the composite z-matrix the function constructs in its
local variable `zma` at line 215 (the Python function itself only prints that
z-matrix and returns `None`; it consumes exactly one arc from the
decomposition iterator).  The externally measured end-to-end distance
(`automol.zmat.distance`) and central angle are supplied as oracles
`measDist` and `measAng`, since converting a z-matrix to Cartesian geometry
is outside the given sources. -/
def RingSystemZmatrix (measDist : ZMat → ℕ → ℕ → ℝ)
    (measAng : ZMat → ℕ → ℕ → ℕ → ℝ) (gra : Graph) (decomp : List (List ℕ))
    (out : ZMat) : Prop :=
  ∃ ring_keys arc_keys rest ringRes arcRes,
    decomp = ring_keys :: arc_keys :: rest ∧
    RingZmatrix gra ring_keys XY_DIST XY_DIST ringRes ∧
    RingZmatrix gra arc_keys XY_DIST
      (measDist ringRes.1
        (dctLookup (ring_keys.zip ringRes.2) (arc_keys.getD 0 0))
        (dctLookup (ring_keys.zip ringRes.2) (arc_keys.getD (arc_keys.length - 1) 0)))
      arcRes ∧
    out = ring_system_compose measAng ring_keys arc_keys ringRes arcRes

-- ### Concrete graphs used by the witnesses and counterexamples

/-- A three-carbon chain/ring fragment: atoms 0-1-2, all carbon, all sp3. -/
def g3 : Graph :=
  ⟨fun _ => .C,
   fun k => if k = 0 then [1] else if k = 1 then [0, 2] else if k = 2 then [1] else [],
   fun _ => 3⟩

/-- A carbon bonded to a hydrogen: atom 0 is C, atom 1 is H. -/
def gH : Graph :=
  ⟨fun k => if k = 0 then .C else .H,
   fun k => if k = 0 then [1] else if k = 1 then [0] else [],
   fun _ => 3⟩

/-- An eight-carbon bicyclic skeleton: a six-ring 0-1-2-3-4-5 plus the arc
0-6-7-5 sharing the endpoints 0 and 5 (the ring builder reads only the
symbols, so neighbor data is irrelevant to it). -/
def g8 : Graph := ⟨fun _ => .C, fun _ => [], fun _ => 3⟩

-- ### Structural invariants of the builders

/-- Well-formedness of z-matrix rows: every back-reference of row `i` points
strictly below `i`, and row `i` carries exactly `min i 3` references. -/
def RowsOK (zma : ZMat) : Prop :=
  ∀ i (h : i < zma.length),
    (∀ r ∈ rowRefs (zma.get ⟨i, h⟩), r < i) ∧
    (rowRefs (zma.get ⟨i, h⟩)).length = min i 3

lemma rowsOK_nil : RowsOK [] := by
  intro i h
  simp at h

lemma rowsOK_append (zma : ZMat) (row : ZRow) (h : RowsOK zma)
    (h1 : ∀ r ∈ rowRefs row, r < zma.length)
    (h2 : (rowRefs row).length = min zma.length 3) :
    RowsOK (zma ++ [row]) := by
  intro i hi
  rcases Nat.lt_or_ge i zma.length with hlt | hge
  · have hget : (zma ++ [row]).get ⟨i, hi⟩ = zma.get ⟨i, hlt⟩ :=
      List.getElem_append_left hlt
    rw [hget]
    exact h i hlt
  · have hieq : i = zma.length := by
      simp [List.length_append] at hi
      omega
    subst hieq
    have hget : (zma ++ [row]).get ⟨zma.length, hi⟩ = row := by
      simp
    rw [hget]
    exact ⟨h1, h2⟩

/-- Loop invariant of the chain builder after the keys `P` have been placed. -/
def ChainInv (P : List ℕ) (st : ChainSt) : Prop :=
  st.zma.length = P.length ∧ RowsOK st.zma ∧
  match st.win with
  | .w0 => P = []
  | .w1 k3 => P = [k3] ∧ st.rowDct k3 = some 0
  | .w2 k2 k3 => P = [k2, k3] ∧ st.rowDct k2 = some 0 ∧ st.rowDct k3 = some 1
  | .w3 k1 k2 k3 =>
      (∃ Q, P = Q ++ [k1, k2, k3]) ∧
      st.rowDct k1 = some (P.length - 3) ∧ st.rowDct k2 = some (P.length - 2) ∧
      st.rowDct k3 = some (P.length - 1)

lemma chain_step_inv (gra : Graph) (P : List ℕ) (st : ChainSt) (key4 : ℕ)
    (hinv : ChainInv P st) (hk : key4 ∉ P) (st2 : ChainSt)
    (hstep : chain_step gra st key4 = .ok st2) :
    ChainInv (P ++ [key4]) st2 := by
  obtain ⟨d, z, win⟩ := st
  obtain ⟨hlen, hrows, hwin⟩ := hinv
  simp only at hlen hrows
  cases win with
  | w0 =>
    simp only [ChainInv] at hwin
    subst hwin
    replace hlen : z.length = 0 := by simpa using hlen
    simp only [chain_step, zmat.count, Except.ok.injEq] at hstep
    subst hstep
    refine ⟨by simp [zmat.add_atom, hlen], ?_, ?_, ?_⟩
    · apply rowsOK_append _ _ hrows
      · intro r hr
        simp [rowRefs] at hr
      · simp [rowRefs, hlen]
    · simp
    · simp [zmat.count, hlen]
  | w1 k3 =>
    simp only [ChainInv] at hwin
    obtain ⟨hP, hd3⟩ := hwin
    subst hP
    have hne3 : k3 ≠ key4 := by
      intro h
      exact hk (by simp [h])
    simp only [chain_step, zmat.count] at hstep
    cases h34 : heuristic_bond_distance gra k3 key4 true with
    | error e => rw [h34] at hstep; simp [bind, Except.bind] at hstep
    | ok r34 =>
      rw [h34] at hstep
      simp only [bind, Except.bind, Except.ok.injEq] at hstep
      subst hstep
      have hlen1 : z.length = 1 := by simpa using hlen
      refine ⟨by simp [zmat.add_atom, hlen1], ?_, by simp, ?_, ?_⟩
      · apply rowsOK_append _ _ hrows
        · intro r hr
          simp [rowRefs, hne3, hd3, hlen1] at hr
          omega
        · simp [rowRefs, hne3, hd3, hlen1]
      · simp [hne3, hd3]
      · simp [hlen1]
  | w2 k2 k3 =>
    simp only [ChainInv] at hwin
    obtain ⟨hP, hd2, hd3⟩ := hwin
    subst hP
    have hne2 : k2 ≠ key4 := by
      intro h
      exact hk (by simp [h])
    have hne3 : k3 ≠ key4 := by
      intro h
      exact hk (by simp [h])
    simp only [chain_step, zmat.count] at hstep
    cases h34 : heuristic_bond_distance gra k3 key4 true with
    | error e => rw [h34] at hstep; simp [bind, Except.bind] at hstep
    | ok r34 =>
      rw [h34] at hstep
      cases h234 : heuristic_bond_angle gra k2 k3 key4 true with
      | error e => rw [h234] at hstep; simp [bind, Except.bind] at hstep
      | ok a234 =>
        rw [h234] at hstep
        simp only [bind, Except.bind, Except.ok.injEq] at hstep
        subst hstep
        have hlen2 : z.length = 2 := by simpa using hlen
        refine ⟨by simp [zmat.add_atom, hlen2], ?_, ⟨[], by simp⟩, ?_, ?_, ?_⟩
        · apply rowsOK_append _ _ hrows
          · intro r hr
            simp [rowRefs, hne2, hne3, hd2, hd3, hlen2] at hr
            omega
          · simp [rowRefs, hne2, hne3, hd2, hd3, hlen2]
        · simp [hne2, hd2]
        · simp [hne3, hd3]
        · simp [hlen2]
  | w3 k1 k2 k3 =>
    simp only [ChainInv] at hwin
    obtain ⟨⟨Q, hP⟩, hd1, hd2, hd3⟩ := hwin
    have hne1 : k1 ≠ key4 := by
      intro h
      exact hk (by simp [hP, h])
    have hne2 : k2 ≠ key4 := by
      intro h
      exact hk (by simp [hP, h])
    have hne3 : k3 ≠ key4 := by
      intro h
      exact hk (by simp [hP, h])
    simp only [chain_step, zmat.count] at hstep
    cases h34 : heuristic_bond_distance gra k3 key4 true with
    | error e => rw [h34] at hstep; simp [bind, Except.bind] at hstep
    | ok r34 =>
      rw [h34] at hstep
      cases h234 : heuristic_bond_angle gra k2 k3 key4 true with
      | error e => rw [h234] at hstep; simp [bind, Except.bind] at hstep
      | ok a234 =>
        rw [h234] at hstep
        simp only [bind, Except.bind, Except.ok.injEq] at hstep
        subst hstep
        have hge3 : 3 ≤ P.length := by
          subst hP
          simp
        refine ⟨by simp [zmat.add_atom, hlen], ?_, ⟨Q ++ [k1], by simp [hP]⟩, ?_, ?_, ?_⟩
        · apply rowsOK_append _ _ hrows
          · intro r hr
            simp [rowRefs, hne1, hne2, hne3, hd1, hd2, hd3] at hr
            omega
          · simp [rowRefs, hne1, hne2, hne3, hd1, hd2, hd3, hlen]
            omega
        · simp only [List.length_append, List.length_cons, List.length_nil]
          simp [hne2, hd2]
        · simp only [List.length_append, List.length_cons, List.length_nil]
          simp [hne3, hd3]
        · simp only [List.length_append, List.length_cons, List.length_nil]
          simp [zmat.count, hlen]

lemma chain_aux_inv (gra : Graph) :
    ∀ (ks P : List ℕ) (st stf : ChainSt), (P ++ ks).Nodup → ChainInv P st →
      chain_zmatrix_aux gra ks st = .ok stf → ChainInv (P ++ ks) stf := by
  intro ks
  induction ks with
  | nil =>
    intro P st stf _ hinv haux
    simp only [chain_zmatrix_aux, Except.ok.injEq] at haux
    subst haux
    simpa using hinv
  | cons k ks ih =>
    intro P st stf hnd hinv haux
    simp only [chain_zmatrix_aux] at haux
    cases hstep : chain_step gra st k with
    | error e => rw [hstep] at haux; simp [bind, Except.bind] at haux
    | ok st1 =>
      rw [hstep] at haux
      simp only [bind, Except.bind] at haux
      have hk : k ∉ P := by
        intro hmem
        rcases List.nodup_append.mp (by simpa using hnd) with ⟨_, _, hdisj⟩
        exact hdisj hmem (by simp)
      have hinv1 := chain_step_inv gra P st k hinv hk st1 hstep
      have hnd1 : ((P ++ [k]) ++ ks).Nodup := by simpa using hnd
      have := ih (P ++ [k]) st1 stf hnd1 hinv1 haux
      simpa using this

/-- C7: for every chain of distinct atom keys that the chain z-matrix builder
accepts, it produces exactly one row per key, row `i` references only rows
strictly below `i`, and rows 0, 1, 2 carry exactly 0, 1, 2 back-references
respectively (row `i` carries `min i 3` of them). -/
theorem chain_zmatrix_wellformed (gra : Graph) (chain_keys : List ℕ) (zma : ZMat) (rows : List ℕ)
    (hnd : chain_keys.Nodup)
    (hok : chain_zmatrix gra chain_keys = .ok (zma, rows)) :
    zma.length = chain_keys.length ∧
    ∀ i (hi : i < zma.length),
      (∀ r ∈ rowRefs (zma.get ⟨i, hi⟩), r < i) ∧
      (rowRefs (zma.get ⟨i, hi⟩)).length = min i 3 := by
  simp only [chain_zmatrix] at hok
  cases haux : chain_zmatrix_aux gra chain_keys ⟨fun _ => none, [], .w0⟩ with
  | error e => rw [haux] at hok; simp [bind, Except.bind] at hok
  | ok stf =>
    rw [haux] at hok
    simp only [bind, Except.bind, Except.ok.injEq, Prod.mk.injEq] at hok
    obtain ⟨hz, hr⟩ := hok
    have hinv0 : ChainInv [] ⟨fun _ => none, [], .w0⟩ := ⟨rfl, rowsOK_nil, rfl⟩
    have hinv := chain_aux_inv gra chain_keys [] _ stf (by simpa using hnd) hinv0 haux
    obtain ⟨hlen, hrows, _⟩ := hinv
    subst hz
    exact ⟨by simpa using hlen, hrows⟩

/-- The z-matrix that `chain_zmatrix` builds for the chain 0-1-2 of `g3`. -/
noncomputable def E3 : ZMat :=
  [⟨.C, [none, none, none], [none, none, none]⟩,
   ⟨.C, [some 0, none, none], [some XY_DIST, none, none]⟩,
   ⟨.C, [some 1, some 0, none], [some XY_DIST, some TET_ANG, none]⟩]

/-- Witness for C7 at the concrete chain 0-1-2 of `g3`. -/
theorem chain_zmatrix_wellformed_witness :
    E3.length = ([0, 1, 2] : List ℕ).length ∧
    ∀ i (hi : i < E3.length),
      (∀ r ∈ rowRefs (E3.get ⟨i, hi⟩), r < i) ∧
      (rowRefs (E3.get ⟨i, hi⟩)).length = min i 3 :=
  chain_zmatrix_wellformed g3 [0, 1, 2] E3 [0, 1, 2] (by decide) rfl

-- ### Facts about the ring-closure angle solver

lemma clampTheta_eq_self (θ : ℝ) (h : 0.01 ≤ θ) : clampTheta θ = θ := by
  unfold clampTheta
  rw [if_neg]
  rw [abs_of_nonneg (by linarith)]
  intro hc
  linarith

/-- Any root of the residual for `num = 3`, `end_dist = bond_dist = 3/2`
inside the solver's bracket is `4*pi/3` (the equilateral-triangle arc). -/
lemma ringArcRoot_eq_triangle (θ : ℝ) (h1 : 0.01 ≤ θ) (h2 : θ ≤ 2 * π)
    (hres : ringArcResidual 3 (3 / 2) (3 / 2) θ = 0) : θ = 4 * π / 3 := by
  have hπ3 : (3 : ℝ) < π := Real.pi_gt_three
  unfold ringArcResidual at hres
  rw [clampTheta_eq_self _ h1] at hres
  rw [show (θ : ℝ) / (2 * (((3 : ℕ) : ℝ) - 1)) = θ / 4 by push_cast; ring] at hres
  rw [div_self (by norm_num : (3 / 2 : ℝ) ≠ 0)] at hres
  have hsin2 : Real.sin (θ / 2) ≠ 0 := by
    intro h0
    rw [h0] at hres
    simp at hres
  have hquot : Real.sin (θ / 4) = Real.sin (θ / 2) := by
    have := sub_eq_zero.mp hres
    field_simp at this
    linarith [this]
  have hdouble : Real.sin (θ / 2) = 2 * Real.sin (θ / 4) * Real.cos (θ / 4) := by
    rw [show (θ / 2 : ℝ) = 2 * (θ / 4) by ring, Real.sin_two_mul]
  have hspos : 0 < Real.sin (θ / 4) :=
    Real.sin_pos_of_pos_of_lt_pi (by linarith) (by nlinarith)
  have hcos : Real.cos (θ / 4) = 1 / 2 := by
    rw [hdouble] at hquot
    nlinarith
  have hmem1 : θ / 4 ∈ Set.Icc 0 π := ⟨by linarith, by nlinarith⟩
  have hmem2 : (π / 3 : ℝ) ∈ Set.Icc 0 π := ⟨by positivity, by linarith⟩
  have := Real.injOn_cos hmem1 hmem2 (by rw [hcos, Real.cos_pi_div_three])
  linarith

/-- The residual for the equilateral-triangle arc vanishes at `4*pi/3`. -/
lemma ringArcResidual_triangle : ringArcResidual 3 (3 / 2) (3 / 2) (4 * π / 3) = 0 := by
  have hπ3 : (3 : ℝ) < π := Real.pi_gt_three
  unfold ringArcResidual
  rw [clampTheta_eq_self _ (by nlinarith)]
  rw [show (4 * π / 3 : ℝ) / (2 * (((3 : ℕ) : ℝ) - 1)) = π / 3 by push_cast; ring]
  rw [show (4 * π / 3 : ℝ) / 2 = π - π / 3 by ring]
  rw [Real.sin_pi_sub, div_self (by rw [Real.sin_pi_div_three]; positivity)]
  norm_num

/-- The solver can return 60 degrees on the equilateral-triangle input. -/
lemma ringArcBondAngle_triangle : RingArcBondAngle 3 (3 / 2) (3 / 2) 60 := by
  have hπ3 : (3 : ℝ) < π := Real.pi_gt_three
  have hπ : π ≠ 0 := Real.pi_ne_zero
  refine Or.inr ⟨by push_cast; norm_num, 4 * π / 3, by nlinarith, by nlinarith,
    ringArcResidual_triangle, ?_⟩
  push_cast
  field_simp
  ring

/-- C2 counterexample: at the boundary `end_dist = (num-1)*bond_dist` (here
`num = 3`, `bond_dist = 1`, `end_dist = 2`) the solver does not return 180:
the straight-chain branch requires a strict inequality, and any solver branch
result is strictly below 180 since the bracketed root is positive. -/
theorem ring_arc_boundary_not_180 :
    ((2 : ℝ) = (((3 : ℕ) : ℝ) - 1) * 1) ∧ ¬ RingArcBondAngle 3 2 1 180 := by
  constructor
  · push_cast
    norm_num
  · rintro (⟨hlt, -⟩ | ⟨-, θ, h1, -, -, hang⟩)
    · push_cast at hlt
      linarith
    · have hπ : (0 : ℝ) < π := Real.pi_pos
      have : θ * (180 / π) / (((3 : ℕ) : ℝ) - 1) = 0 := by linarith
      push_cast at this
      have h180π : (0 : ℝ) < 180 / π := by positivity
      nlinarith

/-- C2 (amended): the solver returns exactly 180 whenever
`end_dist > (num-1)*bond_dist` holds strictly. -/
theorem ring_arc_straight_of_long (num : ℕ) (end_dist bond_dist : ℝ)
    (hnum : 2 ≤ num) (he : 0 < end_dist) (hb : 0 < bond_dist)
    (hgt : ((num : ℝ) - 1) * bond_dist < end_dist) :
    RingArcBondAngle num end_dist bond_dist 180 :=
  Or.inl ⟨hgt, rfl⟩

/-- Witness for the amended C2 at `num = 2`, `end_dist = 3`, `bond_dist = 1`. -/
theorem ring_arc_straight_of_long_witness :
    2 ≤ 2 ∧ (0 : ℝ) < 3 ∧ (0 : ℝ) < 1 ∧ ((((2 : ℕ) : ℝ) - 1) * 1 < 3) ∧
    RingArcBondAngle 2 3 1 180 :=
  ⟨le_refl 2, by norm_num, by norm_num, by push_cast; norm_num,
    ring_arc_straight_of_long 2 3 1 (le_refl 2) (by norm_num) (by norm_num)
      (by push_cast; norm_num)⟩

/-- C3 counterexample: with `num = 1` and the default distances the solver
returns the numeric angle 180 rather than raising any error, because the
straight-chain test `end_dist > (num-1)*bond_dist` degenerates to
`end_dist > 0`. -/
theorem ring_arc_num_one_returns :
    RingArcBondAngle 1 (3 / 2) (3 / 2) 180 :=
  Or.inl ⟨by push_cast; norm_num, rfl⟩

/-- C3 (amended): for `num = 1` and any positive end distance the solver
returns 180 via the straight-chain branch; no precondition is checked. -/
theorem ring_arc_num_one (end_dist bond_dist : ℝ) (he : 0 < end_dist) :
    RingArcBondAngle 1 end_dist bond_dist 180 :=
  Or.inl ⟨by push_cast; simpa, rfl⟩

/-- Witness for the amended C3 at `end_dist = 2`, `bond_dist = 5`. -/
theorem ring_arc_num_one_witness :
    (0 : ℝ) < 2 ∧ RingArcBondAngle 1 2 5 180 :=
  ⟨by norm_num, ring_arc_num_one 2 5 (by norm_num)⟩

/-- C4: on the equilateral-triangle input `num = 3`,
`bond_dist = end_dist = 3/2`, every angle the solver can return is 60
degrees, hence within the 1e-4 tolerance of 60. -/
theorem ring_arc_triangle_angle (ang : ℝ)
    (h : RingArcBondAngle 3 (3 / 2) (3 / 2) ang) : |ang - 60| ≤ 1e-4 := by
  rcases h with ⟨hlt, -⟩ | ⟨-, θ, h1, h2, hres, hang⟩
  · exfalso
    push_cast at hlt
    linarith
  · have hθ := ringArcRoot_eq_triangle θ h1 h2 hres
    subst hθ
    have hπ : π ≠ 0 := Real.pi_ne_zero
    have : ang = 60 := by
      rw [hang]
      push_cast
      field_simp
      ring
    rw [this]
    norm_num

/-- Witness for C4: the solver does return 60 on the triangle input, and 60
is within tolerance. -/
theorem ring_arc_triangle_angle_witness :
    RingArcBondAngle 3 (3 / 2) (3 / 2) 60 ∧ |(60 : ℝ) - 60| ≤ 1e-4 :=
  ⟨ringArcBondAngle_triangle,
    ring_arc_triangle_angle 60 ringArcBondAngle_triangle⟩

/-- Scaling both distances leaves the residual unchanged: it depends on the
distances only through the ratio `bond_dist/end_dist`. -/
lemma ringArcResidual_scale (num : ℕ) (end_dist bond_dist c θ : ℝ) (hc : c ≠ 0) :
    ringArcResidual num (c * end_dist) (c * bond_dist) θ =
      ringArcResidual num end_dist bond_dist θ := by
  unfold ringArcResidual
  rw [mul_div_mul_left _ _ hc]

/-- C10: the solver is scale-invariant: scaling the end and bond distances by
a common positive factor yields exactly the same set of returned angles. -/
theorem ring_arc_scale_invariant (num : ℕ) (end_dist bond_dist c ang : ℝ)
    (hnum : 2 ≤ num) (he : 0 < end_dist) (hb : 0 < bond_dist) (hc : 0 < c) :
    RingArcBondAngle num (c * end_dist) (c * bond_dist) ang ↔
      RingArcBondAngle num end_dist bond_dist ang := by
  unfold RingArcBondAngle
  have hbr : (((num : ℝ) - 1) * (c * bond_dist) < c * end_dist) ↔
      (((num : ℝ) - 1) * bond_dist < end_dist) := by
    rw [show ((num : ℝ) - 1) * (c * bond_dist) = c * (((num : ℝ) - 1) * bond_dist) by ring]
    exact mul_lt_mul_left hc
  rw [hbr]
  simp only [ringArcResidual_scale num end_dist bond_dist c _ (ne_of_gt hc)]

/-- Witness for C10 at `num = 2`, `end_dist = bond_dist = 1`, `c = 2`. -/
theorem ring_arc_scale_invariant_witness :
    2 ≤ 2 ∧ (0 : ℝ) < 1 ∧ (0 : ℝ) < 2 ∧
    (RingArcBondAngle 2 (2 * 1) (2 * 1) 180 ↔ RingArcBondAngle 2 1 1 180) :=
  ⟨le_refl 2, by norm_num, by norm_num,
    ring_arc_scale_invariant 2 1 1 2 180 (le_refl 2) (by norm_num) (by norm_num)
      (by norm_num)⟩

-- ### Facts about the heuristic parameter model

/-- C9: for a bonded pair, the distance heuristic returns the X-H constant
when at least one atom is hydrogen (atomic number 1), and the heavy-atom
constant otherwise. -/
theorem bond_distance_cases (gra : Graph) (key1 key2 : ℕ)
    (hb : key1 ∈ gra.ngbDct key2) :
    (((gra.symDct key1).toZ = 1 ∨ (gra.symDct key2).toZ = 1) →
      heuristic_bond_distance gra key1 key2 true = .ok XH_DIST) ∧
    (¬((gra.symDct key1).toZ = 1 ∨ (gra.symDct key2).toZ = 1) →
      heuristic_bond_distance gra key1 key2 true = .ok XY_DIST) := by
  unfold heuristic_bond_distance
  constructor
  · intro hH
    rw [if_neg (by simp [hb]), if_pos hH]
  · intro hH
    rw [if_neg (by simp [hb]), if_neg hH]

/-- Witness for C9 on `gH`: the C-H pair 0-1 gets the X-H constant, and on
`g3`: the C-C pair 0-1 gets the heavy-atom constant. -/
theorem bond_distance_cases_witness :
    (0 ∈ gH.ngbDct 1 ∧ heuristic_bond_distance gH 0 1 true = .ok XH_DIST) ∧
    (0 ∈ g3.ngbDct 1 ∧ heuristic_bond_distance g3 0 1 true = .ok XY_DIST) :=
  ⟨⟨by decide, (bond_distance_cases gH 0 1 (by decide)).1 (Or.inr (by decide))⟩,
   ⟨by decide, (bond_distance_cases g3 0 1 (by decide)).2 (by decide)⟩⟩

/-- C8: for a bonded triple, the angle heuristic returns exactly the
tetrahedral constant 109.4712 for hybridization 3, the trigonal constant 120
for hybridization 2, the linear constant 180 for hybridization 1, and fails
for any other hybridization. -/
theorem bond_angle_cases (gra : Graph) (key1 key2 key3 : ℕ)
    (hb : key1 ∈ gra.ngbDct key2 ∧ key3 ∈ gra.ngbDct key2) :
    (gra.hybDct key2 = 3 → heuristic_bond_angle gra key1 key2 key3 true = .ok TET_ANG) ∧
    (gra.hybDct key2 = 2 → heuristic_bond_angle gra key1 key2 key3 true = .ok TRI_ANG) ∧
    (gra.hybDct key2 = 1 → heuristic_bond_angle gra key1 key2 key3 true = .ok LIN_ANG) ∧
    (gra.hybDct key2 ≠ 3 → gra.hybDct key2 ≠ 2 → gra.hybDct key2 ≠ 1 →
      heuristic_bond_angle gra key1 key2 key3 true =
        .error .unsupportedHybridization) := by
  unfold heuristic_bond_angle
  refine ⟨fun h3 => ?_, fun h2 => ?_, fun h1 => ?_, fun h3 h2 h1 => ?_⟩
  · rw [if_neg (by simp [hb.1, hb.2]), if_pos h3]
  · rw [if_neg (by simp [hb.1, hb.2]), if_neg (by simp [h2]), if_pos h2]
  · rw [if_neg (by simp [hb.1, hb.2]), if_neg (by simp [h1]), if_neg (by simp [h1]),
      if_pos h1]
  · rw [if_neg (by simp [hb.1, hb.2]), if_neg h3, if_neg h2, if_neg h1]

/-- Witness for C8 on `g3` (all sp3) and a variant of `g3` with center
hybridizations 2, 1 and 7: all four branches at the bonded triple 0-1-2. -/
theorem bond_angle_cases_witness :
    ((0 ∈ g3.ngbDct 1 ∧ 2 ∈ g3.ngbDct 1) ∧
      heuristic_bond_angle g3 0 1 2 true = .ok TET_ANG) ∧
    heuristic_bond_angle ⟨g3.symDct, g3.ngbDct, fun _ => 2⟩ 0 1 2 true = .ok TRI_ANG ∧
    heuristic_bond_angle ⟨g3.symDct, g3.ngbDct, fun _ => 1⟩ 0 1 2 true = .ok LIN_ANG ∧
    heuristic_bond_angle ⟨g3.symDct, g3.ngbDct, fun _ => 7⟩ 0 1 2 true =
      .error .unsupportedHybridization :=
  ⟨⟨⟨by decide, by decide⟩,
      (bond_angle_cases g3 0 1 2 ⟨by decide, by decide⟩).1 rfl⟩,
    (bond_angle_cases ⟨g3.symDct, g3.ngbDct, fun _ => 2⟩ 0 1 2
      ⟨by decide, by decide⟩).2.1 rfl,
    (bond_angle_cases ⟨g3.symDct, g3.ngbDct, fun _ => 1⟩ 0 1 2
      ⟨by decide, by decide⟩).2.2.1 rfl,
    (bond_angle_cases ⟨g3.symDct, g3.ngbDct, fun _ => 7⟩ 0 1 2
      ⟨by decide, by decide⟩).2.2.2 (by decide) (by decide) (by decide)⟩

-- ### Facts about the ring z-matrix builder

/-- Every row the ring loop appends carries the constant value triple
`[bond_dist, bond_ang, 0.]`. -/
lemma ring_aux_valRow (gra : Graph) (bond_dist bond_ang : ℝ) :
    ∀ (ks : List ℕ) (st : ChainSt),
      (∀ row ∈ st.zma, row.valRow = [some bond_dist, some bond_ang, some (0 : ℝ)]) →
      ∀ row ∈ (ring_zmatrix_aux gra bond_dist bond_ang ks st).zma,
        row.valRow = [some bond_dist, some bond_ang, some (0 : ℝ)] := by
  intro ks
  induction ks with
  | nil =>
    intro st h
    simpa [ring_zmatrix_aux] using h
  | cons k ks ih =>
    intro st h
    simp only [ring_zmatrix_aux]
    apply ih
    intro row hrow
    simp only [ring_step, zmat.add_atom, List.mem_append, List.mem_singleton] at hrow
    rcases hrow with hold | hnew
    · exact h row hold
    · rw [hnew]

/-- C6: the ring z-matrix builder computes a single bond angle once, every
appended row carries that very angle, and every dihedral slot is the fixed 0
(in particular for every atom beyond the third); no per-atom recomputation
occurs. -/
theorem ring_rows_constant_values (gra : Graph) (keys : List ℕ)
    (bond_dist end_dist : ℝ) (out : ZMat × List ℕ)
    (h : RingZmatrix gra keys bond_dist end_dist out) :
    ∃ bond_ang, RingArcBondAngle keys.length end_dist bond_dist bond_ang ∧
      ∀ row ∈ out.1, row.valRow = [some bond_dist, some bond_ang, some (0 : ℝ)] := by
  obtain ⟨ang, hang, hout⟩ := h
  refine ⟨ang, hang, ?_⟩
  rw [hout]
  exact ring_aux_valRow gra bond_dist ang keys _ (by simp)

/-- The ring builder on the triangle 0-1-2 of `g3` with `end_dist = 4` takes
the straight-chain branch, giving the angle 180. -/
lemma ringZmatrix_g3_straight :
    RingZmatrix g3 [0, 1, 2] (3 / 2) 4 (ring_zmatrix_rows g3 [0, 1, 2] (3 / 2) 180) :=
  ⟨180, Or.inl ⟨by norm_num, rfl⟩, rfl⟩

/-- Witness for C6 at the concrete ring build of `ringZmatrix_g3_straight`. -/
theorem ring_rows_constant_values_witness :
    RingZmatrix g3 [0, 1, 2] (3 / 2) 4 (ring_zmatrix_rows g3 [0, 1, 2] (3 / 2) 180) ∧
    ∃ bond_ang, RingArcBondAngle ([0, 1, 2] : List ℕ).length 4 (3 / 2) bond_ang ∧
      ∀ row ∈ (ring_zmatrix_rows g3 [0, 1, 2] (3 / 2) 180).1,
        row.valRow = [some (3 / 2 : ℝ), some bond_ang, some (0 : ℝ)] :=
  ⟨ringZmatrix_g3_straight,
    ring_rows_constant_values g3 [0, 1, 2] (3 / 2) 4 _ ringZmatrix_g3_straight⟩

/-- C5 counterexample: building the triangle with only the bond distance
`1/2` supplied (hence the source default `end_dist = XY_DIST = 1.5`) yields
the straight-chain result with angle 180, while building with both distances
equal to `1/2` cannot produce that output: its bracketed root forces an angle
strictly below 180. -/
theorem ring_default_end_not_bond :
    RingZmatrix g3 [0, 1, 2] (1 / 2) XY_DIST
      (ring_zmatrix_rows g3 [0, 1, 2] (1 / 2) 180) ∧
    ¬ RingZmatrix g3 [0, 1, 2] (1 / 2) (1 / 2)
      (ring_zmatrix_rows g3 [0, 1, 2] (1 / 2) 180) := by
  constructor
  · exact ⟨180, Or.inl ⟨by norm_num [XY_DIST], rfl⟩, rfl⟩
  · rintro ⟨ang, hang, heq⟩
    rw [show ([0, 1, 2] : List ℕ).length = 3 from rfl] at hang
    have heq2 : ring_zmatrix_rows g3 [0, 1, 2] (1 / 2) ang =
        ring_zmatrix_rows g3 [0, 1, 2] (1 / 2) 180 := heq.symm
    have hang180 : ang = 180 := by
      simp [ring_zmatrix_rows, ring_zmatrix_aux, ring_step, zmat.add_atom,
        zmat.count] at heq2
      exact heq2
    subst hang180
    rcases hang with ⟨hlt, -⟩ | ⟨-, θ, h1, -, -, hval⟩
    · push_cast at hlt
      linarith
    · have hπ : (0 : ℝ) < π := Real.pi_pos
      have h0 : θ * (180 / π) / (((3 : ℕ) : ℝ) - 1) = 0 := by linarith
      push_cast at h0
      have h180π : (0 : ℝ) < 180 / π := by positivity
      nlinarith

/-- C5 (amended): the omitted end distance defaults to the module constant
`XY_DIST`, so the one-argument call agrees with passing the bond distance for
both exactly when the bond distance is `XY_DIST` itself. -/
theorem ring_default_end_const (gra : Graph) (keys : List ℕ) (bond_dist : ℝ)
    (out : ZMat × List ℕ) (hb : bond_dist = XY_DIST) :
    RingZmatrix gra keys bond_dist XY_DIST out ↔
      RingZmatrix gra keys bond_dist bond_dist out := by
  rw [hb]

/-- Witness for the amended C5 at `bond_dist = 3/2 = XY_DIST`. -/
theorem ring_default_end_const_witness :
    ((3 / 2 : ℝ) = XY_DIST) ∧
    (RingZmatrix g3 [0, 1, 2] (3 / 2) XY_DIST
        (ring_zmatrix_rows g3 [0, 1, 2] (3 / 2) 120) ↔
      RingZmatrix g3 [0, 1, 2] (3 / 2) (3 / 2)
        (ring_zmatrix_rows g3 [0, 1, 2] (3 / 2) 120)) :=
  ⟨by norm_num [XY_DIST],
    ring_default_end_const g3 [0, 1, 2] (3 / 2) _ (by norm_num [XY_DIST])⟩

-- ### Facts about the ring-system composer

/-- The residual for a closed hexagon (ratio 1) vanishes at `5*pi/3`. -/
lemma ringArcResidual_hexagon :
    ringArcResidual 6 XY_DIST XY_DIST (5 * π / 3) = 0 := by
  have hπ3 : (3 : ℝ) < π := Real.pi_gt_three
  unfold ringArcResidual
  rw [clampTheta_eq_self _ (by nlinarith)]
  rw [show (5 * π / 3 : ℝ) / (2 * (((6 : ℕ) : ℝ) - 1)) = π / 6 by push_cast; ring]
  rw [show (5 * π / 3 : ℝ) / 2 = π - π / 6 by ring]
  rw [Real.sin_pi_sub, div_self (by rw [Real.sin_pi_div_six]; norm_num)]
  rw [div_self (by unfold XY_DIST; norm_num)]
  norm_num

/-- The solver can return the hexagon angle 120 on a closed six-ring with the
default distances. -/
lemma ringArcBondAngle_hexagon : RingArcBondAngle 6 XY_DIST XY_DIST 120 := by
  have hπ3 : (3 : ℝ) < π := Real.pi_gt_three
  have hπ : π ≠ 0 := Real.pi_ne_zero
  refine Or.inr ⟨by push_cast; unfold XY_DIST; norm_num, 5 * π / 3, by nlinarith,
    by nlinarith, ringArcResidual_hexagon, ?_⟩
  push_cast
  field_simp
  ring

/-- The primary-ring build of the concrete bicyclic example. -/
lemma ringZmatrix_hexagon :
    RingZmatrix g8 [0, 1, 2, 3, 4, 5] XY_DIST XY_DIST
      (ring_zmatrix_rows g8 [0, 1, 2, 3, 4, 5] XY_DIST 120) :=
  ⟨120, ringArcBondAngle_hexagon, rfl⟩

/-- The arc build of the concrete bicyclic example, with the measured
end-to-end distance 5 (long enough for the straight-chain branch). -/
lemma ringZmatrix_arc5 :
    RingZmatrix g8 [0, 6, 7, 5] XY_DIST 5
      (ring_zmatrix_rows g8 [0, 6, 7, 5] XY_DIST 180) :=
  ⟨180, Or.inl ⟨by unfold XY_DIST; norm_num, rfl⟩, rfl⟩

/-- The composite z-matrix the composer constructs for the bicyclic example:
six-ring 0-1-2-3-4-5 fused with the arc 0-6-7-5 (endpoints 0 and 5 shared),
with the distance oracle returning 5 and the angle oracle returning 90. -/
noncomputable def zsysExample : ZMat :=
  ring_system_compose (fun _ _ _ _ => 90) [0, 1, 2, 3, 4, 5] [0, 6, 7, 5]
    (ring_zmatrix_rows g8 [0, 1, 2, 3, 4, 5] XY_DIST 120)
    (ring_zmatrix_rows g8 [0, 6, 7, 5] XY_DIST 180)

/-- C1: on the two-ring fused decomposition (primary ring of size 6 plus one
arc of size 4 sharing two endpoints) the composer constructs a composite
z-matrix with 6 + 4 - 1 = 9 rows -- one more than the 8 distinct atom keys,
because `join_replace_one` identifies only the arc's first shared endpoint
with an existing row while the second shared endpoint (atom 5) is placed
again. -/
theorem ring_system_rows_exceed_keys :
    RingSystemZmatrix (fun _ _ _ => 5) (fun _ _ _ _ => 90) g8
      [[0, 1, 2, 3, 4, 5], [0, 6, 7, 5]] zsysExample ∧
    zmat.count zsysExample = 9 ∧
    (([0, 1, 2, 3, 4, 5] ++ [0, 6, 7, 5] : List ℕ).dedup).length = 8 :=
  ⟨⟨[0, 1, 2, 3, 4, 5], [0, 6, 7, 5], [],
      ring_zmatrix_rows g8 [0, 1, 2, 3, 4, 5] XY_DIST 120,
      ring_zmatrix_rows g8 [0, 6, 7, 5] XY_DIST 180,
      rfl, ringZmatrix_hexagon, ringZmatrix_arc5, rfl⟩,
    rfl, by decide⟩
